import Mathlib

/-!
Verification of the termite master core: the file-set waiter, the mirror
connection, the mirror pool and the content cache, shallowly embedded from
the Go source (`fileset.go`, the mirror-connection file and the content
cache file).  Stateful Go methods become pure state-passing functions; RPC
calls and the coordinator become oracle parameters; `os.Error` values are
opaque strings.
-/

namespace Termite

/-- Errors are opaque, as `os.Error` in the source. -/
abbrev Err := String

/-- One path plus its content digest; `Hash = ""` means no content, exactly
as the empty `Hash` string in the Go `FileAttr`.  The remaining attribute
fields play no role in the claims under study. -/
structure FileAttr where
  Path : String
  Hash : String
  deriving Repr, DecidableEq, Inhabited

/-- Ordered batch of attribute changes, as the Go `FileSet`. -/
structure FileSet where
  Files : List FileAttr
  deriving Repr, DecidableEq, Inhabited

/-! ## File-set waiter (`fileset.go`)

A channel is identified by a number.  The `channels` list models the keys of
the Go `map[chan int]bool` (so it is duplicate-free in every reachable
state); `closedChans` records channels that `flush` has closed. -/

abbrev Chan := Nat

structure FileSetWaiter where
  channels : List Chan
  closedChans : List Chan
  deriving Repr, DecidableEq, Inhabited

/-- `fileSetWaiter.broadcast`: the deliveries performed by the send loop,
one `(channel, id)` pair per registered channel different from `ignore`,
in registration-set iteration order. -/
def broadcast (w : FileSetWaiter) (id : Nat) (ignore : Chan) : List (Chan × Nat) :=
  w.channels.filterMap fun ch => if ch ≠ ignore then some (ch, id) else none

/-- `fileSetWaiter.getChannel` with the fresh channel supplied by the caller. -/
def getChannel (w : FileSetWaiter) (c : Chan) : FileSetWaiter :=
  { w with channels := c :: w.channels }

/-- `fileSetWaiter.flush`: close every registered channel.  The Go code does
not remove them from the map. -/
def flush (w : FileSetWaiter) : FileSetWaiter :=
  { w with closedChans := w.channels ++ w.closedChans }

/-- The two shapes of a `wait` call: the producer (non-nil `rep.FileSet`,
with the outcome of `replayFileModifications`), or an observer together
with the values its channel delivers and whether the channel is closed
after them. -/
inductive WaitInput where
  | producer (replayOk : Bool)
  | observer (received : List Nat) (chanClosed : Bool)
  deriving Repr, DecidableEq

/-- Error outcome of `wait`: no error, the replay error propagated by the
producer, or the observer error `files were never sent`. -/
inductive WaitErr where
  | ok
  | replayFailed
  | neverSent
  deriving Repr, DecidableEq

/-- The observer receive loop of `wait`: drain values until `id` arrives
(`some true`), hit the closed channel (`some false`), or block forever
(`none`, when the channel neither delivers `id` nor is closed). -/
def observerDrain (id : Nat) : List Nat → Bool → Option Bool
  | [], chanClosed => if chanClosed then some false else none
  | c :: rest, chanClosed =>
    if c = id then some true else observerDrain id rest chanClosed

/-- `fileSetWaiter.wait`, restricted to its waiter-visible effects: the new
waiter state, the broadcast deliveries, and the error returned.  `none`
models a call that never returns.  Note that the observer path for a closed
channel returns before the final unregister statement, exactly as the Go
early `return`. -/
def wait (w : FileSetWaiter) (input : WaitInput) (id : Nat) (completion : Chan) :
    Option (FileSetWaiter × List (Chan × Nat) × WaitErr) :=
  match input with
  | .producer true =>
    some ({ w with channels := w.channels.erase completion },
      broadcast w id completion, .ok)
  | .producer false =>
    let w1 := flush w
    some ({ w1 with channels := w1.channels.erase completion }, [], .replayFailed)
  | .observer received chanClosed =>
    match observerDrain id received chanClosed with
    | some true => some ({ w with channels := w.channels.erase completion }, [], .ok)
    | some false => some (w, [], .neverSent)
    | none => none

/-! ## Mirror connection and mirror pool

A `MirrorConnection` carries the fields of the Go struct that the claims
touch: the map key `workerAddr`, the job counters, and the pending-change
queue.  The extra `outstanding` field is ghost instrumentation absent from
the source: it counts the picks returned on this connection and not yet
matched by a `jobDone`, and exists only to state the pairing hypothesis of
the pool invariant. -/

structure MirrorConnection where
  workerAddr : String
  maxJobs : Int
  availableJobs : Int
  pendingChanges : List FileAttr
  outstanding : Nat
  deriving Repr, DecidableEq, Inhabited

/-- `mirrorConnection.queueFiles`: append the files of the set to the
pending queue. -/
def queueFiles (mc : MirrorConnection) (fset : FileSet) : MirrorConnection :=
  { mc with pendingChanges := mc.pendingChanges ++ fset.Files }

/-- `mirrorConnection.sendFiles`.  The `Mirror.Update` RPC is an oracle
taking the shipped files; the result records the new connection state, the
list of Update requests issued (each one the file list it carried), and the
returned error. -/
def sendFiles (rpcUpdate : List FileAttr → Except Err Unit) (mc : MirrorConnection) :
    MirrorConnection × List (List FileAttr) × Option Err :=
  if mc.pendingChanges.isEmpty then (mc, [], none)
  else
    match rpcUpdate mc.pendingChanges with
    | .error e => (mc, [mc.pendingChanges], some e)
    | .ok _ => ({ mc with pendingChanges := [] }, [mc.pendingChanges], none)

/-- `mirrorConnections.queueFiles`: queue a file set on every open mirror
except the origin connection.  The Go loop compares connection pointers;
since the `mirrors` map is keyed by `workerAddr` and each connection stores
its own key, identity is the worker address. -/
def poolQueueFiles (ms : List MirrorConnection) (origin : String) (fset : FileSet) :
    List MirrorConnection :=
  ms.map fun mc => if mc.workerAddr ≠ origin then queueFiles mc fset else mc

/-- The state of the master that `mirrorConnection.replay` touches: the
digests present in the content cache, the journal of file sets applied to
the writable root, and the open mirrors with their pending queues. -/
structure MasterState where
  cache : List String
  root : List FileSet
  mirrors : List MirrorConnection
  deriving Repr, DecidableEq, Inhabited

/-- The pre-fetch loop of `mirrorConnection.replay`: walk the entries in
order, fetching every non-empty digest through `FetchBetweenContentServers`
(the oracle `fetch`, which stores the blob in the cache on success).
Returns the digests fetched before the first failure, and the first error
if any. -/
def prefetch (fetch : String → Except Err Unit) : List FileAttr → List String × Option Err
  | [] => ([], none)
  | f :: rest =>
    if f.Hash = "" then prefetch fetch rest
    else
      match fetch f.Hash with
      | .error e => ([], some e)
      | .ok _ =>
        let r := prefetch fetch rest
        (f.Hash :: r.1, r.2)

/-- `mirrorConnection.replay`: fetch all content first; only when every
fetch succeeded, apply the set to the master root (`master.replay`, modelled
as appending to the journal) and queue it to the other mirrors. -/
def replay (fetch : String → Except Err Unit) (st : MasterState) (origin : String)
    (fset : FileSet) : MasterState × Option Err :=
  let r := prefetch fetch fset.Files
  let st1 := { st with cache := st.cache ++ r.1 }
  match r.2 with
  | some e => (st1, some e)
  | none =>
    ({ st1 with
        root := st1.root ++ [fset],
        mirrors := poolQueueFiles st1.mirrors origin fset }, none)

/-! ### Pool state functions (`mirrorConnections`) -/

/-- `mirrorConnections.availableJobs`: the accumulating loop that adds only
the strictly positive per-mirror counters. -/
def availableJobs (ms : List MirrorConnection) : Int :=
  ms.foldl (fun a mc => if mc.availableJobs > 0 then a + mc.availableJobs else a) 0

/-- `mirrorConnections.maxJobs`: sum of the per-mirror capacities. -/
def maxJobs (ms : List MirrorConnection) : Int :=
  ms.foldl (fun a mc => a + mc.maxJobs) 0

/-- The capacity test at the top of `mirrorConnections.pick` that decides
whether to refresh workers and try a new connection. -/
def pickNeedsWorkers (ms : List MirrorConnection) : Bool :=
  availableJobs ms ≤ 0

/-- The selection loop of `mirrorConnections.pick` with decrement applied:
take the first mirror whose counter is positive, or the one where the
countdown `j` hits zero, and decrement its counter (the ghost `outstanding`
is incremented alongside).  `none` when the loop finds nothing. -/
def pickSelect : List MirrorConnection → Nat → Option (List MirrorConnection)
  | [], _ => none
  | mc :: rest, j =>
    if j = 0 ∨ mc.availableJobs > 0 then
      some ({ mc with
          availableJobs := mc.availableJobs - 1,
          outstanding := mc.outstanding + 1 } :: rest)
    else
      (pickSelect rest (j - 1)).map (mc :: ·)

/-- The selection phase of `mirrorConnections.pick`: the countdown starts at
the mirror count, or at the random draw `r` when every mirror is full. -/
def pick (ms : List MirrorConnection) (r : Nat) : Option (List MirrorConnection) :=
  let j := if availableJobs ms = 0 then r else ms.length
  pickSelect ms j

/-- `mirrorConnections.jobDone` on the connection with the given address.
Admissible (`some`) only when the connection is live and has an unmatched
pick: this encodes the pairing hypothesis under which the invariant claim
quantifies. -/
def jobDone : List MirrorConnection → String → Option (List MirrorConnection)
  | [], _ => none
  | mc :: rest, a =>
    if mc.workerAddr = a then
      if mc.outstanding > 0 then
        some ({ mc with
            availableJobs := mc.availableJobs + 1,
            outstanding := mc.outstanding - 1 } :: rest)
      else none
    else (jobDone rest a).map (mc :: ·)

/-- `mirrorConnections.drop`: remove the connection from the mirror map. -/
def drop (ms : List MirrorConnection) (a : String) : List MirrorConnection :=
  ms.filter fun mc => mc.workerAddr != a

/-- `mirrorConnections.tryConnect`, success case for one address.  Modelled
from the spec: `Master.createMirror` is not among the sources; per the spec
a freshly created mirror is fully idle, so its live counter starts at its
granted capacity.  Addresses already connected are skipped by the Go loop. -/
def tryConnect (ms : List MirrorConnection) (a : String) (granted : Nat) :
    Option (List MirrorConnection) :=
  if ms.any (fun mc => mc.workerAddr == a) then none
  else
    some (ms ++
      [{ workerAddr := a
         maxJobs := granted
         availableJobs := granted
         pendingChanges := []
         outstanding := 0 }])

/-- `mirrorConnections.dropConnections`: close everything and reset. -/
def dropConnections (_ : List MirrorConnection) : List MirrorConnection := []

/-- `mirrorConnections.maybeDropConnections`: drop all mirrors only when
some exist, the pool is fully idle by the `availableJobs` accessor, and the
keep-alive deadline has passed. -/
def maybeDropConnections (ms : List MirrorConnection)
    (lastActionNs keepAliveNs nowNs : Int) : List MirrorConnection :=
  if ms.length = 0 then ms
  else if availableJobs ms < maxJobs ms then ms
  else if lastActionNs + keepAliveNs > nowNs then ms
  else dropConnections ms

/-! ### Pool traces -/

/-- The operations on the pool, as observed by callers.  `pick` carries the
random draw used when every mirror is full; `tryConnect` carries the address
and the capacity granted by the worker. -/
inductive PoolEvent where
  | pick (r : Nat)
  | jobDone (addr : String)
  | drop (addr : String)
  | tryConnect (addr : String) (granted : Nat)
  | dropConnections
  deriving Repr, DecidableEq

def poolStep (ms : List MirrorConnection) : PoolEvent → Option (List MirrorConnection)
  | .pick r => pick ms r
  | .jobDone a => jobDone ms a
  | .drop a => some (drop ms a)
  | .tryConnect a g => tryConnect ms a g
  | .dropConnections => some (dropConnections ms)

def poolRunFrom (ms : List MirrorConnection) : List PoolEvent → Option (List MirrorConnection)
  | [] => some ms
  | e :: evs =>
    match poolStep ms e with
    | none => none
    | some ms1 => poolRunFrom ms1 evs

/-- Run a trace of pool operations from the initial empty pool. -/
def poolRun (evs : List PoolEvent) : Option (List MirrorConnection) :=
  poolRunFrom [] evs

/-- Raw (unclamped) sum of the live counters over the open mirrors. -/
def sumAvail (ms : List MirrorConnection) : Int :=
  (ms.map (·.availableJobs)).sum

/-- Sum of the capacities over the open mirrors. -/
def sumMax (ms : List MirrorConnection) : Int :=
  (ms.map (·.maxJobs)).sum

/-! ## Worker discovery (`fetchWorkers` / `refreshWorkers`)

The coordinator dial and the `Coordinator.List` RPC are summarised by one
oracle outcome; a worker map `map[string]bool` whose values are all `true`
is the duplicate-free list of its keys. -/

inductive CoordinatorOutcome where
  | dialError (e : Err)
  | listError (e : Err)
  | registered (regs : List String)
  deriving Repr, DecidableEq

/-- `mirrorConnections.fetchWorkers`: empty map on dial or RPC failure,
otherwise one `true` entry per registered address. -/
def fetchWorkers : CoordinatorOutcome → List String
  | .dialError _ => []
  | .listError _ => []
  | .registered regs => regs.dedup

/-- `mirrorConnections.refreshWorkers`: install the fetched map only when it
is non-empty. -/
def refreshWorkers (workers : List String) (o : CoordinatorOutcome) : List String :=
  let newWorkers := fetchWorkers o
  if 0 < newWorkers.length then newWorkers else workers

/-! ## Content cache (`ContentCache`)

Blobs are byte lists; the hash function is an abstract parameter, as the
claims hold for any choice (`crypto.MD5` in the source). -/

/-- `_MEMORY_LIMIT` from the source. -/
def _MEMORY_LIMIT : Nat := 128 * 1024

/-- Which save path `SaveStream` took. -/
inductive SaveRoute where
  | viaMemory
  | viaStream
  deriving Repr, DecidableEq

/-- `ContentCache.saveViaMemory`: write the buffered content through a
`HashWriter`; the digest is the hash of the bytes written. -/
def saveViaMemory (hashFn : List Nat → String) (content : List Nat) : String :=
  hashFn content

/-- `ContentCache.SaveStream` with the reader contents made explicit.
Below the memory limit it reads everything and panics on a short read
(`none`); otherwise it copies exactly `size` bytes through a `HashWriter`,
returning `""` when the reader runs short. -/
def SaveStream (hashFn : List Nat → String) (input : List Nat) (size : Nat) :
    Option (String × SaveRoute) :=
  if size < _MEMORY_LIMIT then
    if input.length = size then some (saveViaMemory hashFn input, .viaMemory) else none
  else if size ≤ input.length then some (hashFn (input.take size), .viaStream)
  else some ("", .viaStream)

/-- The fixed chunk size `1 << 18` of `ContentCache.FetchFromServer`. -/
def chunkSize : Nat := 2 ^ 18

/-- Verdict of a fetch: success, a propagated RPC error, or the
`log.Fatalf` on digest mismatch. -/
inductive FetchRes where
  | ok
  | rpcErr (e : Err)
  | corrupt
  deriving Repr, DecidableEq

/-- Observable trace of one `FetchFromServer` call: every `ContentRequest`
range issued, every blob passed to `Save`, the bytes of a completed
stream-save if one happened, and the verdict. -/
structure FetchTrace where
  requests : List (Nat × Nat)
  saves : List (List Nat)
  streamed : Option (List Nat)
  result : FetchRes
  deriving Repr, DecidableEq

/-- The request loop of `ContentCache.FetchFromServer`.  The fetcher is a
script of chunk answers consumed one per request; `acc` is the data already
written to the `HashWriter` (so `acc.length` is `written`).  A short chunk
at offset zero becomes a single `Save`; any other short chunk ends the
stream, which is then closed and its digest checked.  `none` models a
script too short for the loop. -/
def fetchLoop (hashFn : List Nat → String) (hash : String) :
    List (Except Err (List Nat)) → List Nat → Option FetchTrace
  | [], _ => none
  | r :: rest, acc =>
    let req := (acc.length, acc.length + chunkSize)
    match r with
    | .error e => some ⟨[req], [], none, .rpcErr e⟩
    | .ok chunk =>
      if chunk.length < chunkSize ∧ acc.length = 0 then
        some ⟨[req], [chunk], none, if hashFn chunk = hash then .ok else .corrupt⟩
      else if chunk.length < chunkSize then
        some ⟨[req], [], some (acc ++ chunk),
          if hashFn (acc ++ chunk) = hash then .ok else .corrupt⟩
      else
        match fetchLoop hashFn hash rest (acc ++ chunk) with
        | none => none
        | some t => some ⟨req :: t.requests, t.saves, t.streamed, t.result⟩

/-- `ContentCache.FetchFromServer`: an immediate no-op when the digest is
already present, otherwise the chunk loop from offset zero. -/
def FetchFromServer (hashFn : List Nat → String) (haveHash : Bool) (hash : String)
    (responses : List (Except Err (List Nat))) : Option FetchTrace :=
  if haveHash then some ⟨[], [], none, .ok⟩
  else fetchLoop hashFn hash responses []

/-! ## Theorems -/

/-- C4: `sendFiles` returns nil without issuing any RPC when the pending
queue is empty; when it is non-empty it issues exactly one `Mirror.Update`
RPC carrying exactly the queued entries, clears the queue on success, and
on RPC failure returns the error with the pending queue unchanged. -/
theorem sendFiles_update_contract (rpcUpdate : List FileAttr → Except Err Unit)
    (mc : MirrorConnection) :
    (mc.pendingChanges = [] → sendFiles rpcUpdate mc = (mc, [], none)) ∧
    (mc.pendingChanges ≠ [] →
      (sendFiles rpcUpdate mc).2.1 = [mc.pendingChanges] ∧
      (∀ e, rpcUpdate mc.pendingChanges = .error e →
        sendFiles rpcUpdate mc = (mc, [mc.pendingChanges], some e)) ∧
      (∀ u, rpcUpdate mc.pendingChanges = .ok u →
        sendFiles rpcUpdate mc =
          ({ mc with pendingChanges := [] }, [mc.pendingChanges], none))) := by
  constructor
  · intro h
    simp [sendFiles, h]
  · intro h
    have hne : mc.pendingChanges.isEmpty = false := by
      simpa [List.isEmpty_iff] using h
    refine ⟨?_, fun e he => ?_, fun u hu => ?_⟩
    · cases hr : rpcUpdate mc.pendingChanges <;> simp [sendFiles, hne, hr]
    · simp [sendFiles, hne, he]
    · simp [sendFiles, hne, hu]

theorem sendFiles_update_contract_witness :
    sendFiles (fun _ => Except.ok ()) ⟨"w", 1, 1, [⟨"p", "h"⟩], 0⟩ =
      (⟨"w", 1, 1, [], 0⟩, [[⟨"p", "h"⟩]], none) :=
  ((sendFiles_update_contract (fun _ => Except.ok ())
    ⟨"w", 1, 1, [⟨"p", "h"⟩], 0⟩).2 (by simp)).2.2 () rfl

/-- C8: the pool-level `queueFiles` appends the files of the set to the
pending queue of every open mirror other than the origin, and leaves the
origin queue unchanged. -/
theorem queueFiles_skips_origin (ms : List MirrorConnection) (origin : String)
    (fset : FileSet) (i : Nat) :
    (poolQueueFiles ms origin fset)[i]? =
      (ms[i]?).map fun mc =>
        if mc.workerAddr = origin then mc
        else { mc with pendingChanges := mc.pendingChanges ++ fset.Files } := by
  simp only [poolQueueFiles, List.getElem?_map]
  cases ms[i]? with
  | none => rfl
  | some mc => simp [queueFiles, ite_not]

/-- C9: `refreshWorkers` leaves the worker map untouched when the
coordinator dial fails, when the List RPC fails, or when the registration
list is empty, and installs the fetched map only when at least one worker
is registered. -/
theorem refreshWorkers_frame (workers : List String) (e : Err) (regs : List String) :
    refreshWorkers workers (.dialError e) = workers ∧
    refreshWorkers workers (.listError e) = workers ∧
    refreshWorkers workers (.registered []) = workers ∧
    (regs ≠ [] → refreshWorkers workers (.registered regs) = regs.dedup) := by
  refine ⟨rfl, rfl, rfl, fun h => ?_⟩
  have hne : regs.dedup ≠ [] := by simpa [List.dedup_eq_nil] using h
  have hl : 0 < regs.dedup.length := List.length_pos.mpr hne
  simp [refreshWorkers, fetchWorkers, hl]

theorem refreshWorkers_frame_witness :
    refreshWorkers ["a"] (.registered ["b", "b"]) = (["b", "b"] : List String).dedup :=
  (refreshWorkers_frame ["a"] "e" ["b", "b"]).2.2.2 (by simp)

/-- C7: a blob of size exactly 128 KiB − 1 is saved through the in-memory
path (`saveViaMemory`) and one of size exactly 128 KiB through the
streaming path; on its own bytes each path returns the digest of those
bytes under the hash function of the store. -/
theorem saveStream_memory_boundary (hashFn : List Nat → String) (B : List Nat) :
    (B.length = 128 * 1024 - 1 →
      SaveStream hashFn B (128 * 1024 - 1) = some (saveViaMemory hashFn B, .viaMemory) ∧
      saveViaMemory hashFn B = hashFn B) ∧
    (B.length = 128 * 1024 →
      SaveStream hashFn B (128 * 1024) = some (hashFn B, .viaStream)) := by
  constructor
  · intro h
    have h1 : (128 * 1024 - 1 : Nat) < _MEMORY_LIMIT := by norm_num [_MEMORY_LIMIT]
    exact ⟨by simp [SaveStream, h1, h], rfl⟩
  · intro h
    have h1 : ¬ ((128 * 1024 : Nat) < _MEMORY_LIMIT) := by norm_num [_MEMORY_LIMIT]
    have h2 : (128 * 1024 : Nat) ≤ B.length := le_of_eq h.symm
    have h3 : B.take (128 * 1024) = B := by
      rw [← h]
      exact List.take_length B
    simp [SaveStream, h1, h2, h3]

theorem saveStream_memory_boundary_witness :
    SaveStream (fun _ => "d") (List.replicate (128 * 1024 - 1) 0) (128 * 1024 - 1) =
      some (saveViaMemory (fun _ => "d") (List.replicate (128 * 1024 - 1) 0),
        .viaMemory) ∧
    saveViaMemory (fun _ => "d") (List.replicate (128 * 1024 - 1) 0) = "d" :=
  (saveStream_memory_boundary (fun _ => "d")
    (List.replicate (128 * 1024 - 1) 0)).1 (List.length_replicate _ _)

/-- C6: when the digest is absent and the first chunk at offset zero comes
back shorter than the 256 KiB chunk size, the fetch issues exactly that one
request, records the chunk as the complete blob through a single Save call,
and verifies the saved digest against the requested one, a mismatch being
the fatal corruption outcome. -/
theorem fetch_short_first_chunk_single_save (hashFn : List Nat → String)
    (hash : String) (chunk : List Nat) (rest : List (Except Err (List Nat)))
    (h : chunk.length < chunkSize) :
    FetchFromServer hashFn false hash (.ok chunk :: rest) =
      some ⟨[(0, chunkSize)], [chunk], none,
        if hashFn chunk = hash then .ok else .corrupt⟩ := by
  simp [FetchFromServer, fetchLoop, h]

theorem fetch_short_first_chunk_single_save_witness :
    FetchFromServer (fun _ => "d") false "d" [Except.ok [1, 2, 3]] =
      some ⟨[(0, 2 ^ 18)], [[1, 2, 3]], none, FetchRes.ok⟩ := by
  simpa [chunkSize] using
    fetch_short_first_chunk_single_save (fun _ => "d") "d" [1, 2, 3] []
      (by norm_num [chunkSize])

/-- Membership in the broadcast deliveries: a pair is delivered exactly to
the registered channels other than the ignored one, always carrying the
broadcast id. -/
theorem mem_broadcast (w : FileSetWaiter) (i : Nat) (p ch x : Nat) :
    (ch, x) ∈ broadcast w i p ↔ ch ∈ w.channels ∧ ch ≠ p ∧ x = i := by
  rw [broadcast, List.mem_filterMap]
  constructor
  · rintro ⟨a, ha, hfa⟩
    by_cases hap : a = p
    · simp [hap] at hfa
    · simp only [ne_eq, hap, not_false_eq_true, if_true, Option.some.injEq,
        Prod.mk.injEq] at hfa
      obtain ⟨rfl, rfl⟩ := hfa
      exact ⟨ha, hap, rfl⟩
  · rintro ⟨h1, h2, rfl⟩
    exact ⟨ch, h1, by simp [h2]⟩

/-- The delivery list of a broadcast over a duplicate-free channel set is
itself duplicate-free. -/
theorem broadcast_nodup (w : FileSetWaiter) (i : Nat) (p : Chan)
    (hnd : w.channels.Nodup) : (broadcast w i p).Nodup := by
  refine List.Nodup.filterMap ?_ hnd
  intro a a' b hb hb'
  by_cases h1 : a = p
  · simp [h1] at hb
  · by_cases h2 : a' = p
    · simp [h2] at hb'
    · simp only [ne_eq, h1, not_false_eq_true, if_true, Option.mem_def,
        Option.some.injEq] at hb
      simp only [ne_eq, h2, not_false_eq_true, if_true, Option.mem_def,
        Option.some.injEq] at hb'
      rw [← hb'] at hb
      exact congrArg Prod.fst hb

/-- C2: a broadcast of `i` from producer channel `p` delivers the value `i`
exactly once to every channel registered at that moment and different from
`p`, every delivery to such a channel carries `i`, and `p` itself receives
nothing. -/
theorem broadcast_exactly_once (w : FileSetWaiter) (i : Nat) (p ch : Chan)
    (hnd : w.channels.Nodup) (hm : ch ∈ w.channels) (hne : ch ≠ p) :
    (broadcast w i p).countP (fun d => decide (d = (ch, i))) = 1 ∧
    (∀ x, (ch, x) ∈ broadcast w i p → x = i) ∧
    (∀ x, (p, x) ∉ broadcast w i p) := by
  refine ⟨?_, ?_, ?_⟩
  · exact List.count_eq_one_of_mem (broadcast_nodup w i p hnd)
      ((mem_broadcast w i p ch i).mpr ⟨hm, hne, rfl⟩)
  · intro x hx
    exact ((mem_broadcast w i p ch x).mp hx).2.2
  · intro x hx
    exact ((mem_broadcast w i p p x).mp hx).2.1 rfl

theorem broadcast_exactly_once_witness :
    (broadcast ⟨[1, 2], []⟩ 7 2).countP (fun d => decide (d = (1, 7))) = 1 :=
  (broadcast_exactly_once ⟨[1, 2], []⟩ 7 2 1 (by decide) (by decide) (by decide)).1

/-- C3 fails as stated: an observer whose completion channel was closed
returns from `wait` through the early `return`, and its channel is still
registered in the channel set. -/
theorem wait_closed_channel_stays_registered :
    wait ⟨[0], []⟩ (.observer [] true) 5 0 = some (⟨[0], []⟩, [], .neverSent) ∧
    (0 : Chan) ∈ (FileSetWaiter.mk [0] []).channels :=
  ⟨rfl, by simp⟩

/-- C3 amended: when `wait` returns, the completion channel has been
unregistered on the producer paths and on the observer path that received
its id; on the observer path that found the channel closed, `wait` returns
early and leaves the waiter state (hence the registration) unchanged. -/
theorem wait_unregisters_except_closed (w : FileSetWaiter) (input : WaitInput)
    (id : Nat) (completion : Chan) (w1 : FileSetWaiter)
    (deliv : List (Chan × Nat)) (e : WaitErr) (hnd : w.channels.Nodup)
    (h : wait w input id completion = some (w1, deliv, e)) :
    (e ≠ .neverSent → completion ∉ w1.channels) ∧
    (e = .neverSent → w1 = w) := by
  have herase : completion ∉ w.channels.erase completion := fun hmem =>
    ((List.Nodup.mem_erase_iff hnd).mp hmem).1 rfl
  cases input with
  | producer replayOk =>
    cases replayOk with
    | false =>
      simp only [wait, flush, Option.some.injEq, Prod.mk.injEq] at h
      obtain ⟨hw, -, he⟩ := h
      refine ⟨fun _ => ?_, fun hc => absurd he.symm (by simp [hc])⟩
      rw [← hw]
      exact herase
    | true =>
      simp only [wait, Option.some.injEq, Prod.mk.injEq] at h
      obtain ⟨hw, -, he⟩ := h
      refine ⟨fun _ => ?_, fun hc => absurd he.symm (by simp [hc])⟩
      rw [← hw]
      exact herase
  | observer received chanClosed =>
    cases hdrain : observerDrain id received chanClosed with
    | none => simp [wait, hdrain] at h
    | some b =>
      cases b with
      | true =>
        simp only [wait, hdrain, Option.some.injEq, Prod.mk.injEq] at h
        obtain ⟨hw, -, he⟩ := h
        refine ⟨fun _ => ?_, fun hc => absurd he.symm (by simp [hc])⟩
        rw [← hw]
        exact herase
      | false =>
        simp only [wait, hdrain, Option.some.injEq, Prod.mk.injEq] at h
        obtain ⟨hw, -, he⟩ := h
        exact ⟨fun hne => absurd he.symm hne, fun _ => hw.symm⟩

theorem wait_unregisters_except_closed_witness :
    (WaitErr.ok ≠ WaitErr.neverSent → (0 : Chan) ∉ (FileSetWaiter.mk [1] []).channels) ∧
    (WaitErr.ok = WaitErr.neverSent → FileSetWaiter.mk [1] [] = FileSetWaiter.mk [0, 1] []) :=
  wait_unregisters_except_closed ⟨[0, 1], []⟩ (.producer true) 5 0 ⟨[1], []⟩
    [(1, 5)] .ok (by decide) (by decide)

/-- The pre-fetch loop succeeds exactly when the fetch of every non-empty
digest in the list succeeds. -/
theorem prefetch_none_iff (fetch : String → Except Err Unit) (files : List FileAttr) :
    (prefetch fetch files).2 = none ↔
      ∀ f ∈ files, f.Hash ≠ "" → fetch f.Hash = .ok () := by
  induction files with
  | nil => simp [prefetch]
  | cons f rest ih =>
    by_cases hH : f.Hash = ""
    · simp [prefetch, hH, ih]
    · cases hf : fetch f.Hash with
      | error e => simp [prefetch, hH, hf]
      | ok u =>
        cases u
        simp [prefetch, hH, hf, ih]

/-- C1: `replay` fetches the content of every entry with a non-empty digest
from the worker before any local application; if a fetch fails the error is
returned with the master root journal and every pending queue unchanged,
and only when every fetch succeeded is the set applied to the root and
queued to the other mirrors. -/
theorem replay_prefetch_atomic (fetch : String → Except Err Unit) (st : MasterState)
    (origin : String) (fset : FileSet) :
    (∀ e, (replay fetch st origin fset).2 = some e →
      (replay fetch st origin fset).1.root = st.root ∧
      (replay fetch st origin fset).1.mirrors = st.mirrors) ∧
    ((∃ f ∈ fset.Files, f.Hash ≠ "" ∧ ∃ e, fetch f.Hash = .error e) →
      ∃ e, (replay fetch st origin fset).2 = some e) ∧
    ((replay fetch st origin fset).2 = none →
      (∀ f ∈ fset.Files, f.Hash ≠ "" → fetch f.Hash = .ok ()) ∧
      (replay fetch st origin fset).1.root = st.root ++ [fset] ∧
      (replay fetch st origin fset).1.mirrors = poolQueueFiles st.mirrors origin fset) := by
  cases hp : (prefetch fetch fset.Files).2 with
  | some e0 =>
    refine ⟨fun e _ => ?_, fun _ => ⟨e0, ?_⟩, fun hok => ?_⟩
    · simp [replay, hp]
    · simp [replay, hp]
    · simp [replay, hp] at hok
  | none =>
    refine ⟨fun e he => ?_, fun hbad => ?_, fun _ => ?_⟩
    · simp [replay, hp] at he
    · obtain ⟨f, hfm, hfh, e, hfe⟩ := hbad
      have := (prefetch_none_iff fetch fset.Files).mp hp f hfm hfh
      rw [this] at hfe
      cases hfe
    · refine ⟨(prefetch_none_iff fetch fset.Files).mp hp, ?_, ?_⟩ <;>
        simp [replay, hp]

theorem replay_prefetch_atomic_witness :
    (replay (fun h => if h = "bad" then Except.error "boom" else Except.ok ())
      ⟨[], [], []⟩ "o" ⟨[⟨"p", "bad"⟩]⟩).1.root = ([] : List FileSet) ∧
    (replay (fun h => if h = "bad" then Except.error "boom" else Except.ok ())
      ⟨[], [], []⟩ "o" ⟨[⟨"p", "bad"⟩]⟩).1.mirrors = ([] : List MirrorConnection) :=
  (replay_prefetch_atomic (fun h => if h = "bad" then Except.error "boom" else Except.ok ())
    ⟨[], [], []⟩ "o" ⟨[⟨"p", "bad"⟩]⟩).1 "boom" (by decide)

/-- Conservation invariant of the pool: on every open mirror, the live
counter plus the unmatched picks equal the capacity. -/
def PoolInv (ms : List MirrorConnection) : Prop :=
  ∀ mc ∈ ms, mc.availableJobs + (mc.outstanding : Int) = mc.maxJobs

theorem pickSelect_inv {ms ms1 : List MirrorConnection} {j : Nat}
    (hinv : PoolInv ms) (h : pickSelect ms j = some ms1) : PoolInv ms1 := by
  induction ms generalizing j ms1 with
  | nil => simp [pickSelect] at h
  | cons mc rest ih =>
    rw [pickSelect] at h
    split at h
    · obtain rfl := Option.some.inj h
      intro x hx
      rcases List.mem_cons.mp hx with rfl | hx2
      · have := hinv mc (List.mem_cons_self mc rest)
        simp only []
        push_cast
        omega
      · exact hinv x (List.mem_cons_of_mem mc hx2)
    · obtain ⟨ms2, hms2, rfl⟩ := Option.map_eq_some'.mp h
      intro x hx
      rcases List.mem_cons.mp hx with rfl | hx2
      · exact hinv x (List.mem_cons_self x rest)
      · exact ih (fun y hy => hinv y (List.mem_cons_of_mem mc hy)) hms2 x hx2

theorem jobDone_inv {ms ms1 : List MirrorConnection} {a : String}
    (hinv : PoolInv ms) (h : jobDone ms a = some ms1) : PoolInv ms1 := by
  induction ms generalizing ms1 with
  | nil => simp [jobDone] at h
  | cons mc rest ih =>
    rw [jobDone] at h
    split at h
    · split at h
      · obtain rfl := Option.some.inj h
        intro x hx
        rcases List.mem_cons.mp hx with rfl | hx2
        · have h1 := hinv mc (List.mem_cons_self mc rest)
          have h2 : 0 < mc.outstanding := by assumption
          simp only []
          push_cast [Nat.cast_sub h2]
          omega
        · exact hinv x (List.mem_cons_of_mem mc hx2)
      · cases h
    · obtain ⟨ms2, hms2, rfl⟩ := Option.map_eq_some'.mp h
      intro x hx
      rcases List.mem_cons.mp hx with rfl | hx2
      · exact hinv x (List.mem_cons_self x rest)
      · exact ih (fun y hy => hinv y (List.mem_cons_of_mem mc hy)) hms2 x hx2

theorem poolStep_inv {ms ms1 : List MirrorConnection} {e : PoolEvent}
    (hinv : PoolInv ms) (h : poolStep ms e = some ms1) : PoolInv ms1 := by
  cases e with
  | pick r => exact pickSelect_inv hinv h
  | jobDone a => exact jobDone_inv hinv h
  | drop a =>
    obtain rfl := Option.some.inj h
    intro x hx
    exact hinv x (List.mem_of_mem_filter hx)
  | tryConnect a g =>
    rw [poolStep, tryConnect] at h
    split at h
    · cases h
    · obtain rfl := Option.some.inj h
      intro x hx
      rcases List.mem_append.mp hx with hx1 | hx2
      · exact hinv x hx1
      · obtain rfl := List.mem_singleton.mp hx2
        simp
  | dropConnections =>
    obtain rfl := Option.some.inj h
    intro x hx
    simp [dropConnections] at hx

theorem poolRunFrom_inv {ms ms1 : List MirrorConnection} {evs : List PoolEvent}
    (hinv : PoolInv ms) (h : poolRunFrom ms evs = some ms1) : PoolInv ms1 := by
  induction evs generalizing ms with
  | nil => exact (Option.some.inj h) ▸ hinv
  | cons e evs ih =>
    rw [poolRunFrom] at h
    split at h
    · cases h
    · exact ih (poolStep_inv hinv (by assumption)) h

theorem sumAvail_le_sumMax_of_inv {ms : List MirrorConnection} (hinv : PoolInv ms) :
    sumAvail ms ≤ sumMax ms := by
  induction ms with
  | nil => simp [sumAvail, sumMax]
  | cons mc rest ih =>
    have h1 := hinv mc (List.mem_cons_self mc rest)
    have h2 := ih fun x hx => hinv x (List.mem_cons_of_mem mc hx)
    simp only [sumAvail, sumMax, List.map_cons, List.sum_cons] at h2 ⊢
    have h3 : mc.availableJobs ≤ mc.maxJobs := by omega
    omega

/-- C5: along every trace of pool operations in which each `jobDone` is
paired with a prior `pick` that returned the same still-live connection,
the sum of the live counters over the open mirrors stays at most the sum
of their capacities. -/
theorem pool_availableJobs_le_maxJobs (evs : List PoolEvent)
    (ms : List MirrorConnection) (h : poolRun evs = some ms) :
    sumAvail ms ≤ sumMax ms :=
  sumAvail_le_sumMax_of_inv
    (poolRunFrom_inv (fun _ hx => absurd hx (List.not_mem_nil _)) h)

theorem pool_availableJobs_le_maxJobs_witness :
    sumAvail [⟨"w", 2, 2, [], 0⟩] ≤ sumMax [⟨"w", 2, 2, [], 0⟩] :=
  pool_availableJobs_le_maxJobs [.tryConnect "w" 2, .pick 0, .jobDone "w"]
    [⟨"w", 2, 2, [], 0⟩] (by decide)

/-- The accumulating loop of the `availableJobs` accessor computes the sum
of the clamped counters. -/
theorem availableJobs_eq_sum_clamped (ms : List MirrorConnection) :
    availableJobs ms = (ms.map fun mc => max mc.availableJobs 0).sum := by
  have key : ∀ (l : List MirrorConnection) (a : Int),
      l.foldl (fun a mc => if mc.availableJobs > 0 then a + mc.availableJobs else a) a =
        a + (l.map fun mc => max mc.availableJobs 0).sum := by
    intro l
    induction l with
    | nil => simp
    | cons mc rest ih =>
      intro a
      simp only [List.foldl_cons, List.map_cons, List.sum_cons]
      rw [ih]
      by_cases h : mc.availableJobs > 0
      · rw [if_pos h, max_eq_left (le_of_lt h)]
        ring
      · rw [if_neg h, max_eq_right (le_of_not_lt h)]
        ring
  simpa using key ms 0

/-- An oversubscribing selection (every live counter at most zero) leaves
the clamped sum unchanged and drives the counter of the selected mirror
strictly below zero. -/
theorem pickSelect_oversub {ms ms1 : List MirrorConnection} {j : Nat}
    (hbusy : ∀ mc ∈ ms, mc.availableJobs ≤ 0) (h : pickSelect ms j = some ms1) :
    (ms1.map fun mc => max mc.availableJobs 0).sum =
      (ms.map fun mc => max mc.availableJobs 0).sum ∧
    ∃ mc ∈ ms1, mc.availableJobs < 0 := by
  induction ms generalizing j ms1 with
  | nil => simp [pickSelect] at h
  | cons mc rest ih =>
    rw [pickSelect] at h
    split at h
    · obtain rfl := Option.some.inj h
      have hle := hbusy mc (List.mem_cons_self mc rest)
      constructor
      · simp only [List.map_cons, List.sum_cons]
        have e1 : max (mc.availableJobs - 1) 0 = 0 := max_eq_right (by omega)
        have e2 : max mc.availableJobs 0 = 0 := max_eq_right hle
        rw [e1, e2]
      · exact ⟨_, List.mem_cons_self _ rest, by simp only []; omega⟩
    · obtain ⟨ms2, hms2, rfl⟩ := Option.map_eq_some'.mp h
      obtain ⟨hsum, x, hxm, hxlt⟩ :=
        ih (fun y hy => hbusy y (List.mem_cons_of_mem mc hy)) hms2
      refine ⟨?_, x, List.mem_cons_of_mem mc hxm, hxlt⟩
      simp only [List.map_cons, List.sum_cons, hsum]

/-- C10: the pool `availableJobs` accessor sums only the strictly positive
per-mirror counters, so it is never negative even after an oversubscribing
pick has driven a fully busy mirror below zero; the capacity test of pick
(`availableJobs ≤ 0`) therefore amounts to an equality-with-zero test, and
the idleness test of `maybeDropConnections` keeps every mirror whenever the
clamped sum is below the capacity sum. -/
theorem availableJobs_clamped_nonneg (ms : List MirrorConnection) (r : Nat)
    (lastActionNs keepAliveNs nowNs : Int) :
    availableJobs ms = (ms.map fun mc => max mc.availableJobs 0).sum ∧
    0 ≤ availableJobs ms ∧
    (pickNeedsWorkers ms = true ↔ availableJobs ms = 0) ∧
    ((∀ mc ∈ ms, mc.availableJobs ≤ 0) → ∀ ms1, pick ms r = some ms1 →
      0 ≤ availableJobs ms1 ∧ ∃ mc ∈ ms1, mc.availableJobs < 0) ∧
    (ms ≠ [] → availableJobs ms < maxJobs ms →
      maybeDropConnections ms lastActionNs keepAliveNs nowNs = ms) := by
  have hnn : 0 ≤ availableJobs ms := by
    rw [availableJobs_eq_sum_clamped]
    exact List.sum_nonneg (by
      intro x hx
      obtain ⟨mc, -, rfl⟩ := List.mem_map.mp hx
      exact le_max_right _ _)
  refine ⟨availableJobs_eq_sum_clamped ms, hnn, ?_, fun hbusy ms1 h1 => ?_, fun h1 h2 => ?_⟩
  · simp only [pickNeedsWorkers, decide_eq_true_eq]
    omega
  · obtain ⟨hsum, hex⟩ := pickSelect_oversub hbusy h1
    refine ⟨?_, hex⟩
    rw [availableJobs_eq_sum_clamped, hsum, ← availableJobs_eq_sum_clamped]
    exact hnn
  · have hlen : ¬ ms.length = 0 := by simpa [List.length_eq_zero] using h1
    simp [maybeDropConnections, hlen, h2]

theorem availableJobs_clamped_nonneg_witness :
    0 ≤ availableJobs [⟨"a", 1, -1, [], 1⟩] :=
  ((availableJobs_clamped_nonneg [⟨"a", 1, 0, [], 0⟩] 0 0 0 0).2.2.2.1
    (by decide) [⟨"a", 1, -1, [], 1⟩] (by decide)).1

end Termite
